import Mathlib

/-!
Verification of the confusable-homoglyph text filter
(`futaba/cogs/filter/filter.py`).

The filter builds a Python regular-expression *string* from a phrase,
compiles it with `re.IGNORECASE`, and matches content by searching the
compiled pattern in the content and in the content with a fixed set of
whitespace-homoglyph code points removed.

The embedding below models:
  * the confusables oracle (`confusable_homoglyphs.confusables.is_confusable`)
    as an abstract function returning groups, per the spec's oracle contract
    (a group is one source character plus its homoglyph code points);
  * `re.escape` and the pattern-string construction of `Filter.build_regex`
    and `Filter.__init__` character for character;
  * the Python `re` engine, which is an external dependency, as a
    tokenizer/recursive parser into a small regex AST plus a
    Brzozowski-derivative matcher.  Modelled from the spec: the engine
    covers the constructs reachable from pattern construction — escaped
    literals, character classes (with negation), `.`, the `*`/`+`/`?`
    quantifiers (including lazy variants), groups and alternation;
    anchors and `(?...)` extension syntax are conservatively rejected,
    `{`/`}` are treated as literals, shorthand escapes of alphanumeric
    characters are rejected, and case-insensitivity is modelled with
    ASCII case folding (`Char.toLower`).
-/

namespace Futaba

/-- Abstract syntax of the modelled fragment of Python regular expressions. -/
inductive RE where
  | nul : RE
  | eps : RE
  | lit : Char → RE
  | cls : Bool → List Char → RE
  | dot : RE
  | cat : RE → RE → RE
  | alt : RE → RE → RE
  | star : RE → RE
  | plus : RE → RE
  | opt : RE → RE
  | grp : RE → RE
deriving DecidableEq, Repr

/-- Case-insensitive character comparison (models `re.IGNORECASE`). -/
def charMatchCI (p c : Char) : Bool := p.toLower == c.toLower

/-- Membership test of a character class, case-insensitively;
`neg` is a negated class `[^...]`. -/
def clsMatch (neg : Bool) (cs : List Char) (c : Char) : Bool :=
  let m := cs.any (fun p => charMatchCI p c)
  if neg then !m else m

/-- Does the regex accept the empty string? -/
def nullable : RE → Bool
  | .nul => false
  | .eps => true
  | .lit _ => false
  | .cls _ _ => false
  | .dot => false
  | .cat a b => nullable a && nullable b
  | .alt a b => nullable a || nullable b
  | .star _ => true
  | .plus a => nullable a
  | .opt _ => true
  | .grp a => nullable a

/-- Brzozowski derivative of a regex with respect to one character. -/
def deriv (c : Char) : RE → RE
  | .nul => .nul
  | .eps => .nul
  | .lit p => if charMatchCI p c then .eps else .nul
  | .cls n cs => if clsMatch n cs c then .eps else .nul
  | .dot => if c = '\n' then .nul else .eps
  | .cat a b =>
      if nullable a then .alt (.cat (deriv c a) b) (deriv c b)
      else .cat (deriv c a) b
  | .alt a b => .alt (deriv c a) (deriv c b)
  | .star a => .cat (deriv c a) (.star a)
  | .plus a => .cat (deriv c a) (.star a)
  | .opt a => deriv c a
  | .grp a => deriv c a

/-- Full match: does the regex match the whole string? -/
def rmatch (r : RE) : List Char → Bool
  | [] => nullable r
  | c :: s => rmatch (deriv c r) s

/-- Does the regex match some prefix of the string? -/
def matchPrefix (r : RE) : List Char → Bool
  | [] => nullable r
  | c :: s => nullable r || matchPrefix (deriv c r) s

/-- Substring search, as `re.Pattern.search`: does the regex match
somewhere inside the string? -/
def searchB (r : RE) : List Char → Bool
  | [] => nullable r
  | c :: s => matchPrefix r (c :: s) || searchB r s

/-- The characters escaped by Python's `re.escape`
(`b'()[]{}?*+-|^$\\.&~# \t\n\r\v\f'`). -/
def pySpecialChars : List Char :=
  ['(', ')', '[', ']', '{', '}', '?', '*', '+', '-', '|', '^', '$',
   '\\', '.', '&', '~', '#', ' ', '\t', '\n', '\r', '\x0b', '\x0c']

def pySpecial (c : Char) : Bool := pySpecialChars.contains c

/-- `re.escape` on a single character. -/
def reEscape (c : Char) : List Char :=
  if pySpecial c then ['\\', c] else [c]

/-- `re.escape` on a string. -/
def escapeAll (s : List Char) : List Char := s.flatMap reEscape

/-- Token stream produced from a pattern string. -/
inductive Tok where
  | lit : Char → Tok
  | cls : Bool → List Char → Tok
  | dot : Tok
  | star : Tok
  | plus : Tok
  | quest : Tok
  | lparen : Tok
  | rparen : Tok
  | bar : Tok
deriving DecidableEq, Repr

/-- Tokenizer state: outside any class, just after `[` (or `[^` when the
flag is true, where `]` is still a literal), or inside a class with the
accumulated members (reversed). -/
inductive CState where
  | out : CState
  | cls0 : Bool → CState
  | clsIn : Bool → List Char → CState
deriving DecidableEq, Repr

/-- Tokenize a pattern string.  Returns `none` on the compilation errors
Python's `re.compile` reports at scanning level (trailing backslash,
unterminated character set), and conservatively on constructs outside the
modelled fragment (anchors, `(?`, escaped alphanumerics). -/
def tokenizeAux : List Char → CState → Option (List Tok)
  | [], .out => some []
  | [], .cls0 _ => none
  | [], .clsIn _ _ => none
  | c :: rest, .out =>
      if c = '\\' then
        match rest with
        | [] => none
        | d :: rest2 =>
            if d.isAlphanum then none
            else (tokenizeAux rest2 .out).map (fun ts => .lit d :: ts)
      else if c = '[' then tokenizeAux rest (.cls0 false)
      else if c = '.' then (tokenizeAux rest .out).map (fun ts => .dot :: ts)
      else if c = '*' then (tokenizeAux rest .out).map (fun ts => .star :: ts)
      else if c = '+' then (tokenizeAux rest .out).map (fun ts => .plus :: ts)
      else if c = '?' then (tokenizeAux rest .out).map (fun ts => .quest :: ts)
      else if c = '(' then
        match rest with
        | '?' :: _ => none
        | _ => (tokenizeAux rest .out).map (fun ts => .lparen :: ts)
      else if c = ')' then (tokenizeAux rest .out).map (fun ts => .rparen :: ts)
      else if c = '|' then (tokenizeAux rest .out).map (fun ts => .bar :: ts)
      else if c = '^' then none
      else if c = '$' then none
      else (tokenizeAux rest .out).map (fun ts => .lit c :: ts)
  | c :: rest, .cls0 neg =>
      if c = '^' && !neg then tokenizeAux rest (.cls0 true)
      else if c = '\\' then
        match rest with
        | [] => none
        | d :: rest2 =>
            if d.isAlphanum then none
            else tokenizeAux rest2 (.clsIn neg [d])
      else tokenizeAux rest (.clsIn neg [c])
  | c :: rest, .clsIn neg acc =>
      if c = ']' then
        (tokenizeAux rest .out).map (fun ts => .cls neg acc.reverse :: ts)
      else if c = '\\' then
        match rest with
        | [] => none
        | d :: rest2 =>
            if d.isAlphanum then none
            else tokenizeAux rest2 (.clsIn neg (d :: acc))
      else tokenizeAux rest (.clsIn neg (c :: acc))

def tokenize (s : List Char) : Option (List Tok) := tokenizeAux s .out

/-- A partially parsed group: completed alternatives and the current
element sequence, both in reverse order. -/
structure PFrame where
  alts : List RE
  seq : List RE
deriving DecidableEq, Repr

/-- Fold a reversed element sequence into a concatenation. -/
def seqToRE (rev : List RE) : RE := rev.reverse.foldr RE.cat RE.eps

/-- Close a frame into a regex (alternation of its alternatives). -/
def frameToRE (f : PFrame) : RE :=
  match f.alts with
  | [] => seqToRE f.seq
  | a :: rest => (a :: rest).foldl (fun acc b => RE.alt b acc) (seqToRE f.seq)

/-- Is the element already quantified (so a following `*`/`+` is a
"multiple repeat" error)? -/
def isQuant : RE → Bool
  | .star _ => true
  | .plus _ => true
  | .opt _ => true
  | _ => false

/-- Parse a token stream into a regex, reporting quantifier and
parenthesis errors as `re.compile` does. -/
def parseToks : List Tok → PFrame → List PFrame → Option RE
  | [], f, [] => some (frameToRE f)
  | [], _, _ :: _ => none
  | .lit c :: ts, f, st => parseToks ts ⟨f.alts, .lit c :: f.seq⟩ st
  | .cls n cs :: ts, f, st => parseToks ts ⟨f.alts, .cls n cs :: f.seq⟩ st
  | .dot :: ts, f, st => parseToks ts ⟨f.alts, .dot :: f.seq⟩ st
  | .star :: ts, f, st =>
      match f.seq with
      | [] => none
      | e :: rest =>
          if isQuant e then none else parseToks ts ⟨f.alts, .star e :: rest⟩ st
  | .plus :: ts, f, st =>
      match f.seq with
      | [] => none
      | e :: rest =>
          if isQuant e then none else parseToks ts ⟨f.alts, .plus e :: rest⟩ st
  | .quest :: ts, f, st =>
      match f.seq with
      | [] => none
      | e :: rest =>
          if isQuant e then parseToks ts f st
          else parseToks ts ⟨f.alts, .opt e :: rest⟩ st
  | .lparen :: ts, f, st => parseToks ts ⟨[], []⟩ (f :: st)
  | .rparen :: ts, f, st =>
      match st with
      | [] => none
      | g :: gs => parseToks ts ⟨g.alts, .grp (frameToRE f) :: g.seq⟩ gs
  | .bar :: ts, f, st => parseToks ts ⟨seqToRE f.seq :: f.alts, []⟩ st

/-- `re.compile` on a pattern string: `none` models a raised `re.error`. -/
def reCompile (s : List Char) : Option RE :=
  match tokenize s with
  | none => none
  | some ts => parseToks ts ⟨[], []⟩ []

/-- One oracle group: a character of the phrase together with its
homoglyph code points (spec §6). -/
structure ConfusableGroup where
  character : Char
  homoglyphs : List Char
deriving DecidableEq, Repr

/-- An oracle: `confusables.is_confusable(text, greedy=True)`. -/
def Oracle := List Char → List ConfusableGroup

/-- The character-class fragment built for one group in
`Filter.build_regex`: the escaped original character followed by every
escaped homoglyph, wrapped in class brackets. -/
def classFrag (g : ConfusableGroup) : List Char :=
  '[' :: (reEscape g.character ++ g.homoglyphs.flatMap reEscape ++ [']'])

/-- Lookup in the `chars` dict of `Filter.build_regex`; Python dict
assignment means the last group for a character wins. -/
def lookupGroup (groups : List ConfusableGroup) (c : Char) :
    Option ConfusableGroup :=
  groups.reverse.find? (fun g => g.character == c)

/-- `Filter.build_regex`: per-character pattern assembly.  A character
with a group entry contributes its class fragment; any other character is
emitted raw (`chars.get(char, char)`). -/
def build_regex (text : List Char) (groups : List ConfusableGroup) :
    List Char :=
  text.flatMap (fun c =>
    match lookupGroup groups c with
    | some g => classFrag g
    | none => [c])

/-- The character set of `UNICODE_SPACES_REGEX`, exactly as written in the
source (including the duplicated U+2006; note the absence of the line and
paragraph separators U+2028 and U+2029). -/
def UNICODE_SPACES : List Char :=
  ['\u0020', '\u00A0', '\u1680',
   '\u180E', '\u2000', '\u2001',
   '\u2002', '\u2003', '\u2004',
   '\u2005', '\u2006', '\u2006',
   '\u2007', '\u2008', '\u2009',
   '\u200A', '\u200B', '\u202F',
   '\u205F', '\u3000', '\uFEFF']

def isUnicodeSpace (c : Char) : Bool := UNICODE_SPACES.contains c

/-- `UNICODE_SPACES_REGEX.sub("", content)`: remove (not replace) every
whitespace-homoglyph code point. -/
def stripSpaces (s : List Char) : List Char :=
  s.filter (fun c => !isUnicodeSpace c)

/-- The matcher: original phrase and compiled pattern. -/
structure Filter where
  text : List Char
  regex : RE
deriving DecidableEq, Repr

/-- `Filter.__init__`: query the oracle, build the pattern (class-based
when groups were reported, `re.escape(text)` otherwise) and compile it.
`none` models a raised compilation error. -/
def Filter.build (analyze : Oracle) (text : List Char) : Option Filter :=
  let groups := analyze text
  let pattern :=
    match groups with
    | [] => escapeAll text
    | _ :: _ => build_regex text groups
  (reCompile pattern).map (fun r => { text := text, regex := r })

/-- `Filter.matches`: search the pattern in the content and in the
content with whitespace homoglyphs stripped. -/
def Filter.matches (f : Filter) (content : List Char) : Bool :=
  let contents := [content, stripSpaces content]
  contents.any (fun s => searchB f.regex s)

/-- `Filter.__hash__`: `hash(self.text) ^ 0x2C6F024ED28`, over an
abstract string-hash function (Python's string hash is runtime-salted). -/
def Filter.hashWith (h : List Char → Nat) (f : Filter) : Nat :=
  h f.text ^^^ 0x2C6F024ED28

/-- `Filter.__eq__` between two matchers: both `isinstance` checks
succeed, so the result is the comparison of the `text` fields. -/
def Filter.eqF (a b : Filter) : Bool := a.text == b.text

/-- A Python value handed to `Filter.__eq__` as right operand. -/
inductive PyValue where
  | filt : Filter → PyValue
  | str : List Char → PyValue
  | int : Int → PyValue
  | noneV : PyValue
  | boolV : Bool → PyValue
deriving DecidableEq, Repr

/-- `Filter.__eq__` against an arbitrary value: the `isinstance(other,
Filter)` guard short-circuits to `False` for non-`Filter` operands. -/
def Filter.eqPy (a : Filter) : PyValue → Bool
  | .filt b => a.text == b.text
  | _ => false

/-! ## Specification-side definitions

These follow the spec's words ("case-insensitive substring") and are
compared with the behaviour of the code-derived definitions above. -/

/-- Pointwise case-insensitive equality of two strings. -/
def ciEqB : List Char → List Char → Bool
  | [], [] => true
  | p :: ps, c :: cs => charMatchCI p c && ciEqB ps cs
  | _, _ => false

/-- Is `p` a case-insensitive prefix of `t`? -/
def prefixCI : List Char → List Char → Bool
  | [], _ => true
  | _ :: _, [] => false
  | p :: ps, c :: cs => charMatchCI p c && prefixCI ps cs

/-- Does `p` occur as a case-insensitive substring of `s`? -/
def containsCI (p : List Char) : List Char → Bool
  | [] => prefixCI p []
  | c :: s => prefixCI p (c :: s) || containsCI p s

/-! ## Derived forms of the generated pattern -/

/-- The regex element the parser produces for one phrase character. -/
def elemRE (groups : List ConfusableGroup) (c : Char) : RE :=
  match lookupGroup groups c with
  | some g => .cls false (g.character :: g.homoglyphs)
  | none => .lit c

/-- The token the tokenizer produces for one phrase character. -/
def elemTok (groups : List ConfusableGroup) (c : Char) : Tok :=
  match lookupGroup groups c with
  | some g => .cls false (g.character :: g.homoglyphs)
  | none => .lit c

/-- The parsed form of the generated pattern: one single-character
element per phrase character, concatenated. -/
def genAST (text : List Char) (groups : List ConfusableGroup) : RE :=
  (text.map (elemRE groups)).foldr RE.cat RE.eps

/-- How one phrase character accepts one content character: by its class
(when grouped) or case-insensitively (when not). -/
def elemMatch (groups : List ConfusableGroup) (p c : Char) : Bool :=
  match lookupGroup groups p with
  | some g => clsMatch false (g.character :: g.homoglyphs) c
  | none => charMatchCI p c

/-- Pointwise matching of a phrase row against a string. -/
def rowMatch (groups : List ConfusableGroup) :
    List Char → List Char → Bool
  | [], [] => true
  | p :: ps, c :: cs => elemMatch groups p c && rowMatch groups ps cs
  | _, _ => false

/-- A concrete oracle reporting no confusable characters for any phrase. -/
def oracleNone : Oracle := fun _ => []

/-- A concrete oracle reporting one group: Latin `a` with its Cyrillic
homoglyph U+0430.  It satisfies the spec's oracle contract for any phrase
containing `a`. -/
def oracleCyrA : Oracle := fun _ => [⟨'a', ['\u0430']⟩]

end Futaba

namespace Futaba

/-! ## Basic facts about the derivative matcher -/

theorem rmatch_nul (s : List Char) : rmatch .nul s = false := by
  induction s with
  | nil => rfl
  | cons c s ih => simpa [rmatch, deriv] using ih

theorem rmatch_alt (a b : RE) (s : List Char) :
    rmatch (.alt a b) s = (rmatch a s || rmatch b s) := by
  induction s generalizing a b with
  | nil => rfl
  | cons c s ih => simpa [rmatch, deriv] using ih (deriv c a) (deriv c b)

theorem rmatch_cat_nul (r : RE) (s : List Char) :
    rmatch (.cat .nul r) s = false := by
  induction s with
  | nil => rfl
  | cons c s ih => simpa [rmatch, deriv, nullable] using ih

theorem rmatch_cat_eps (r : RE) (s : List Char) :
    rmatch (.cat .eps r) s = rmatch r s := by
  cases s with
  | nil => simp [rmatch, nullable]
  | cons c s =>
      simp [rmatch, deriv, nullable, rmatch_alt, rmatch_cat_nul]

theorem nullable_elemRE (groups : List ConfusableGroup) (p : Char) :
    nullable (elemRE groups p) = false := by
  unfold elemRE
  cases lookupGroup groups p <;> rfl

theorem deriv_elemRE (groups : List ConfusableGroup) (p c : Char) :
    deriv c (elemRE groups p) =
      if elemMatch groups p c then .eps else .nul := by
  unfold elemRE elemMatch
  cases lookupGroup groups p <;> rfl

/-- The parsed generated pattern matches exactly the strings that agree
with the phrase pointwise (per-character class or case-insensitive
literal). -/
theorem rmatch_genAST (groups : List ConfusableGroup) (p w : List Char) :
    rmatch (genAST p groups) w = rowMatch groups p w := by
  induction p generalizing w with
  | nil =>
      cases w with
      | nil => rfl
      | cons c w => simp [genAST, rmatch, deriv, rmatch_nul, rowMatch]
  | cons a p ih =>
      cases w with
      | nil =>
          simp [genAST, rmatch, nullable, nullable_elemRE, rowMatch]
      | cons c w =>
          have hd : rmatch (genAST (a :: p) groups) (c :: w)
              = rmatch (.cat (deriv c (elemRE groups a)) (genAST p groups)) w := by
            simp [genAST, rmatch, deriv, nullable_elemRE]
          rw [hd, deriv_elemRE]
          cases h : elemMatch groups a c with
          | true => simp [rmatch_cat_eps, ih, rowMatch, h]
          | false => simp [rmatch_cat_nul, rowMatch, h]

end Futaba

namespace Futaba

/-! ## Search as existence of a matching substring -/

theorem matchPrefix_iff (r : RE) (s : List Char) :
    matchPrefix r s = true ↔ ∃ w v, s = w ++ v ∧ rmatch r w = true := by
  induction s generalizing r with
  | nil =>
      constructor
      · intro h
        exact ⟨[], [], rfl, h⟩
      · rintro ⟨w, v, hv, hm⟩
        rcases List.append_eq_nil.mp hv.symm with ⟨rfl, rfl⟩
        exact hm
  | cons c s ih =>
      constructor
      · intro h
        rcases Bool.or_eq_true_iff.mp h with h | h
        · exact ⟨[], c :: s, rfl, h⟩
        · rcases (ih (deriv c r)).mp h with ⟨w, v, hv, hm⟩
          exact ⟨c :: w, v, by simp [hv], hm⟩
      · rintro ⟨w, v, hv, hm⟩
        cases w with
        | nil =>
            exact Bool.or_eq_true_iff.mpr (Or.inl hm)
        | cons d w =>
            obtain ⟨h1, h2⟩ := List.cons_eq_cons.mp hv
            subst h1
            subst h2
            exact Bool.or_eq_true_iff.mpr
              (Or.inr ((ih (deriv c r)).mpr ⟨w, v, rfl, hm⟩))

theorem searchB_iff (r : RE) (s : List Char) :
    searchB r s = true ↔ ∃ u w v, s = u ++ (w ++ v) ∧ rmatch r w = true := by
  induction s with
  | nil =>
      constructor
      · intro h
        exact ⟨[], [], [], rfl, h⟩
      · rintro ⟨u, w, v, hv, hm⟩
        rcases List.append_eq_nil.mp hv.symm with ⟨rfl, h2⟩
        rcases List.append_eq_nil.mp h2 with ⟨rfl, rfl⟩
        exact hm
  | cons c s ih =>
      constructor
      · intro h
        rcases Bool.or_eq_true_iff.mp h with h | h
        · rcases (matchPrefix_iff r (c :: s)).mp h with ⟨w, v, hv, hm⟩
          exact ⟨[], w, v, by simp [hv], hm⟩
        · rcases ih.mp h with ⟨u, w, v, hv, hm⟩
          exact ⟨c :: u, w, v, by simp [hv], hm⟩
      · rintro ⟨u, w, v, hv, hm⟩
        cases u with
        | nil =>
            exact Bool.or_eq_true_iff.mpr
              (Or.inl ((matchPrefix_iff r (c :: s)).mpr ⟨w, v, hv, hm⟩))
        | cons d u =>
            rcases List.cons_eq_cons.mp hv with ⟨rfl, rfl⟩
            exact Bool.or_eq_true_iff.mpr (Or.inr (ih.mpr ⟨u, w, v, rfl, hm⟩))

/-! ## Case-insensitive substring containment -/

theorem prefixCI_iff (p : List Char) :
    ∀ t, prefixCI p t = true ↔ ∃ w v, t = w ++ v ∧ ciEqB p w = true := by
  induction p with
  | nil =>
      intro t
      constructor
      · intro _
        exact ⟨[], t, rfl, rfl⟩
      · intro _
        rfl
  | cons a p ih =>
      intro t
      cases t with
      | nil =>
          constructor
          · intro h
            exact absurd h (by simp [prefixCI])
          · rintro ⟨w, v, hv, hm⟩
            rcases List.append_eq_nil.mp hv.symm with ⟨rfl, rfl⟩
            exact absurd hm (by simp [ciEqB])
      | cons c t =>
          constructor
          · intro h
            rcases Bool.and_eq_true_iff.mp h with ⟨h1, h2⟩
            rcases (ih t).mp h2 with ⟨w, v, hv, hm⟩
            exact ⟨c :: w, v, by simp [hv], by simp [ciEqB, h1, hm]⟩
          · rintro ⟨w, v, hv, hm⟩
            cases w with
            | nil => exact absurd hm (by simp [ciEqB])
            | cons d w =>
                rcases List.cons_eq_cons.mp hv with ⟨rfl, rfl⟩
                rcases Bool.and_eq_true_iff.mp hm with ⟨h1, h2⟩
                exact Bool.and_eq_true_iff.mpr ⟨h1, (ih (w ++ v)).mpr ⟨w, v, rfl, h2⟩⟩

theorem containsCI_iff (p s : List Char) :
    containsCI p s = true ↔ ∃ u w v, s = u ++ (w ++ v) ∧ ciEqB p w = true := by
  induction s with
  | nil =>
      constructor
      · intro h
        rcases (prefixCI_iff p []).mp h with ⟨w, v, hv, hm⟩
        exact ⟨[], w, v, hv, hm⟩
      · rintro ⟨u, w, v, hv, hm⟩
        rcases List.append_eq_nil.mp hv.symm with ⟨rfl, h2⟩
        exact (prefixCI_iff p []).mpr ⟨w, v, h2.symm, hm⟩
  | cons c s ih =>
      constructor
      · intro h
        rcases Bool.or_eq_true_iff.mp h with h | h
        · rcases (prefixCI_iff p (c :: s)).mp h with ⟨w, v, hv, hm⟩
          exact ⟨[], w, v, by simp [hv], hm⟩
        · rcases ih.mp h with ⟨u, w, v, hv, hm⟩
          exact ⟨c :: u, w, v, by simp [hv], hm⟩
      · rintro ⟨u, w, v, hv, hm⟩
        cases u with
        | nil =>
            exact Bool.or_eq_true_iff.mpr
              (Or.inl ((prefixCI_iff p (c :: s)).mpr ⟨w, v, hv, hm⟩))
        | cons d u =>
            rcases List.cons_eq_cons.mp hv with ⟨rfl, rfl⟩
            exact Bool.or_eq_true_iff.mpr (Or.inr (ih.mpr ⟨u, w, v, rfl, hm⟩))

theorem lookupGroup_nil (c : Char) : lookupGroup [] c = none := rfl

theorem rowMatch_nil_eq (p w : List Char) : rowMatch [] p w = ciEqB p w := by
  induction p generalizing w with
  | nil => cases w <;> rfl
  | cons a p ih =>
      cases w with
      | nil => rfl
      | cons c w =>
          simp [rowMatch, ciEqB, elemMatch, lookupGroup_nil, ih]

theorem charMatchCI_refl (c : Char) : charMatchCI c c = true := by
  simp [charMatchCI]

theorem ciEqB_refl (p : List Char) : ciEqB p p = true := by
  induction p with
  | nil => rfl
  | cons a p ih => simp [ciEqB, charMatchCI_refl, ih]

theorem elemMatch_refl (groups : List ConfusableGroup) (a : Char) :
    elemMatch groups a a = true := by
  unfold elemMatch
  cases h : lookupGroup groups a with
  | none => exact charMatchCI_refl a
  | some g =>
      have h' : List.find? (fun x => x.character == a) groups.reverse
          = some g := h
      have hg := List.find?_some h'
      simp only [beq_iff_eq] at hg
      simp [clsMatch, List.any_cons, hg, charMatchCI_refl]

theorem rowMatch_refl (groups : List ConfusableGroup) (p : List Char) :
    rowMatch groups p p = true := by
  induction p with
  | nil => rfl
  | cons a p ih => simp [rowMatch, elemMatch_refl, ih]

/-- In the fallback case the derivative search coincides with direct
case-insensitive substring search. -/
theorem searchB_fallback_eq_contains (p s : List Char) :
    searchB (genAST p []) s = containsCI p s := by
  have h : searchB (genAST p []) s = true ↔ containsCI p s = true := by
    rw [searchB_iff, containsCI_iff]
    constructor
    · rintro ⟨u, w, v, hv, hm⟩
      rw [rmatch_genAST, rowMatch_nil_eq] at hm
      exact ⟨u, w, v, hv, hm⟩
    · rintro ⟨u, w, v, hv, hm⟩
      refine ⟨u, w, v, hv, ?_⟩
      rw [rmatch_genAST, rowMatch_nil_eq]
      exact hm
  cases h1 : searchB (genAST p []) s <;> cases h2 : containsCI p s <;>
    simp_all

end Futaba

namespace Futaba

/-! ## Tokenizer correctness on generated patterns -/

theorem pySpecial_not_alnum (c : Char) (h : pySpecial c = true) :
    c.isAlphanum = false := by
  have hm : c ∈ pySpecialChars := List.mem_of_elem_eq_true h
  have hall : ∀ x ∈ pySpecialChars, x.isAlphanum = false := by decide
  exact hall c hm

theorem not_special_ne {c : Char} (x : Char) (hc : pySpecial c = false)
    (hx : pySpecial x = true) : c ≠ x := by
  intro h
  rw [h, hx] at hc
  cases hc

theorem escapeAll_cons (c : Char) (s : List Char) :
    escapeAll (c :: s) = reEscape c ++ escapeAll s := by
  simp [escapeAll]

theorem tok_out_lit {c : Char} (hc : pySpecial c = false) (rest : List Char) :
    tokenizeAux (c :: rest) .out
      = (tokenizeAux rest .out).map (fun ts => .lit c :: ts) := by
  have h1 : c ≠ '\\' := not_special_ne _ hc (by decide)
  have h2 : c ≠ '[' := not_special_ne _ hc (by decide)
  have h3 : c ≠ '.' := not_special_ne _ hc (by decide)
  have h4 : c ≠ '*' := not_special_ne _ hc (by decide)
  have h5 : c ≠ '+' := not_special_ne _ hc (by decide)
  have h6 : c ≠ '?' := not_special_ne _ hc (by decide)
  have h7 : c ≠ '(' := not_special_ne _ hc (by decide)
  have h8 : c ≠ ')' := not_special_ne _ hc (by decide)
  have h9 : c ≠ '|' := not_special_ne _ hc (by decide)
  have h10 : c ≠ '^' := not_special_ne _ hc (by decide)
  have h11 : c ≠ '$' := not_special_ne _ hc (by decide)
  rw [tokenizeAux.eq_def]
  simp [h1, h2, h3, h4, h5, h6, h7, h8, h9, h10, h11]

theorem tok_out_esc {c : Char} (hc : pySpecial c = true) (rest : List Char) :
    tokenizeAux ('\\' :: c :: rest) .out
      = (tokenizeAux rest .out).map (fun ts => .lit c :: ts) := by
  have hna := pySpecial_not_alnum c hc
  rw [tokenizeAux.eq_def]
  simp [hna]

theorem tok_clsIn (xs : List Char) :
    ∀ (neg : Bool) (acc rest : List Char),
      tokenizeAux (escapeAll xs ++ ']' :: rest) (.clsIn neg acc)
        = (tokenizeAux rest .out).map
            (fun ts => .cls neg (acc.reverse ++ xs) :: ts) := by
  induction xs with
  | nil =>
      intro neg acc rest
      have h0 : escapeAll [] ++ ']' :: rest = ']' :: rest := rfl
      rw [h0, tokenizeAux.eq_def]
      simp
  | cons x xs ih =>
      intro neg acc rest
      rw [escapeAll_cons]
      cases hx : pySpecial x with
      | true =>
          have hna := pySpecial_not_alnum x hx
          have harr : (reEscape x ++ escapeAll xs) ++ ']' :: rest
              = '\\' :: x :: (escapeAll xs ++ ']' :: rest) := by
            simp [reEscape, hx]
          have hstep : tokenizeAux
              ('\\' :: x :: (escapeAll xs ++ ']' :: rest)) (.clsIn neg acc)
              = tokenizeAux (escapeAll xs ++ ']' :: rest)
                  (.clsIn neg (x :: acc)) := by
            rw [tokenizeAux.eq_def]
            simp [hna]
          rw [harr, hstep, ih neg (x :: acc) rest]
          simp
      | false =>
          have h1 : x ≠ ']' := not_special_ne _ hx (by decide)
          have h2 : x ≠ '\\' := not_special_ne _ hx (by decide)
          have harr : (reEscape x ++ escapeAll xs) ++ ']' :: rest
              = x :: (escapeAll xs ++ ']' :: rest) := by
            simp [reEscape, hx]
          have hstep : tokenizeAux
              (x :: (escapeAll xs ++ ']' :: rest)) (.clsIn neg acc)
              = tokenizeAux (escapeAll xs ++ ']' :: rest)
                  (.clsIn neg (x :: acc)) := by
            rw [tokenizeAux.eq_def]
            simp [h1, h2]
          rw [harr, hstep, ih neg (x :: acc) rest]
          simp

theorem tok_classFrag (g : ConfusableGroup) (rest : List Char) :
    tokenizeAux (classFrag g ++ rest) .out
      = (tokenizeAux rest .out).map
          (fun ts => .cls false (g.character :: g.homoglyphs) :: ts) := by
  have hopen : tokenizeAux (classFrag g ++ rest) .out
      = tokenizeAux
          (reEscape g.character ++ (escapeAll g.homoglyphs ++ ']' :: rest))
          (.cls0 false) := by
    have hb : classFrag g ++ rest
        = '[' :: (reEscape g.character
            ++ (escapeAll g.homoglyphs ++ ']' :: rest)) := by
      simp [classFrag, escapeAll]
    rw [hb, tokenizeAux.eq_def]
    simp
  rw [hopen]
  cases hx : pySpecial g.character with
  | true =>
      have hna := pySpecial_not_alnum g.character hx
      have harr : reEscape g.character ++ (escapeAll g.homoglyphs ++ ']' :: rest)
          = '\\' :: g.character :: (escapeAll g.homoglyphs ++ ']' :: rest) := by
        simp [reEscape, hx]
      have hstep : tokenizeAux
          ('\\' :: g.character :: (escapeAll g.homoglyphs ++ ']' :: rest))
          (.cls0 false)
          = tokenizeAux (escapeAll g.homoglyphs ++ ']' :: rest)
              (.clsIn false [g.character]) := by
        rw [tokenizeAux.eq_def]
        simp [hna]
      rw [harr, hstep, tok_clsIn]
      simp
  | false =>
      have h1 : g.character ≠ '^' := not_special_ne _ hx (by decide)
      have h2 : g.character ≠ '\\' := not_special_ne _ hx (by decide)
      have harr : reEscape g.character ++ (escapeAll g.homoglyphs ++ ']' :: rest)
          = g.character :: (escapeAll g.homoglyphs ++ ']' :: rest) := by
        simp [reEscape, hx]
      have hstep : tokenizeAux
          (g.character :: (escapeAll g.homoglyphs ++ ']' :: rest))
          (.cls0 false)
          = tokenizeAux (escapeAll g.homoglyphs ++ ']' :: rest)
              (.clsIn false [g.character]) := by
        rw [tokenizeAux.eq_def]
        simp [h1, h2]
      rw [harr, hstep, tok_clsIn]
      simp

end Futaba

namespace Futaba

/-! ## Tokenizing and parsing whole generated patterns -/

theorem tokenizeAux_gen (text : List Char) (groups : List ConfusableGroup)
    (h : ∀ c ∈ text, lookupGroup groups c = none → pySpecial c = false) :
    ∀ rest, tokenizeAux (build_regex text groups ++ rest) .out
      = (tokenizeAux rest .out).map
          (fun ts => text.map (elemTok groups) ++ ts) := by
  induction text with
  | nil =>
      intro rest
      simp [build_regex]
  | cons a text ih =>
      intro rest
      have ih' := ih (fun c hc hn => h c (List.mem_cons_of_mem a hc) hn)
      cases hl : lookupGroup groups a with
      | some g =>
          have hbr : build_regex (a :: text) groups
              = classFrag g ++ build_regex text groups := by
            simp [build_regex, hl]
          have h1 : elemTok groups a
              = Tok.cls false (g.character :: g.homoglyphs) := by
            simp [elemTok, hl]
          rw [hbr, List.append_assoc, tok_classFrag, ih' rest]
          cases tokenizeAux rest .out <;> simp [h1]
      | none =>
          have hs := h a (List.mem_cons_self a text) hl
          have hbr : build_regex (a :: text) groups
              = a :: build_regex text groups := by
            simp [build_regex, hl]
          have h1 : elemTok groups a = Tok.lit a := by
            simp [elemTok, hl]
          rw [hbr, List.cons_append, tok_out_lit hs, ih' rest]
          cases tokenizeAux rest .out <;> simp [h1]

theorem tokenize_build_regex (text : List Char)
    (groups : List ConfusableGroup)
    (h : ∀ c ∈ text, lookupGroup groups c = none → pySpecial c = false) :
    tokenize (build_regex text groups)
      = some (text.map (elemTok groups)) := by
  have := tokenizeAux_gen text groups h []
  simpa [tokenize, tokenizeAux] using this

theorem tokenizeAux_escape (text : List Char) :
    ∀ rest, tokenizeAux (escapeAll text ++ rest) .out
      = (tokenizeAux rest .out).map
          (fun ts => text.map (elemTok []) ++ ts) := by
  induction text with
  | nil =>
      intro rest
      simp [escapeAll]
  | cons a text ih =>
      intro rest
      have h1 : elemTok [] a = Tok.lit a := by
        simp [elemTok, lookupGroup_nil]
      rw [escapeAll_cons]
      cases hx : pySpecial a with
      | true =>
          have harr : (reEscape a ++ escapeAll text) ++ rest
              = '\\' :: a :: (escapeAll text ++ rest) := by
            simp [reEscape, hx]
          rw [harr, tok_out_esc hx, ih rest]
          cases tokenizeAux rest .out <;> simp [h1]
      | false =>
          have harr : (reEscape a ++ escapeAll text) ++ rest
              = a :: (escapeAll text ++ rest) := by
            simp [reEscape, hx]
          rw [harr, tok_out_lit hx, ih rest]
          cases tokenizeAux rest .out <;> simp [h1]

theorem tokenize_escapeAll (text : List Char) :
    tokenize (escapeAll text) = some (text.map (elemTok [])) := by
  have := tokenizeAux_escape text []
  simpa [tokenize, tokenizeAux] using this

theorem parseToks_atoms (groups : List ConfusableGroup) (xs : List Char) :
    ∀ (ts : List Tok) (alts seq : List RE) (st : List PFrame),
      parseToks (xs.map (elemTok groups) ++ ts) ⟨alts, seq⟩ st
        = parseToks ts ⟨alts, (xs.map (elemRE groups)).reverse ++ seq⟩ st := by
  induction xs with
  | nil => intro ts alts seq st; simp
  | cons a xs ih =>
      intro ts alts seq st
      cases hl : lookupGroup groups a with
      | some g =>
          have h1 : elemTok groups a
              = Tok.cls false (g.character :: g.homoglyphs) := by
            simp [elemTok, hl]
          have h2 : elemRE groups a
              = RE.cls false (g.character :: g.homoglyphs) := by
            simp [elemRE, hl]
          have hstep : parseToks ((a :: xs).map (elemTok groups) ++ ts)
              ⟨alts, seq⟩ st
              = parseToks (xs.map (elemTok groups) ++ ts)
                  ⟨alts, RE.cls false (g.character :: g.homoglyphs) :: seq⟩
                  st := by
            simp [h1, parseToks]
          rw [hstep, ih ts alts _ st]
          simp [h2]
      | none =>
          have h1 : elemTok groups a = Tok.lit a := by simp [elemTok, hl]
          have h2 : elemRE groups a = RE.lit a := by simp [elemRE, hl]
          have hstep : parseToks ((a :: xs).map (elemTok groups) ++ ts)
              ⟨alts, seq⟩ st
              = parseToks (xs.map (elemTok groups) ++ ts)
                  ⟨alts, RE.lit a :: seq⟩ st := by
            simp [h1, parseToks]
          rw [hstep, ih ts alts _ st]
          simp [h2]

theorem parseToks_atoms_closed (groups : List ConfusableGroup)
    (xs : List Char) :
    parseToks (xs.map (elemTok groups)) ⟨[], []⟩ []
      = some (genAST xs groups) := by
  have h := parseToks_atoms groups xs [] [] [] []
  simp only [List.append_nil] at h
  rw [h]
  simp [parseToks, frameToRE, seqToRE, genAST]

theorem reCompile_build_regex (text : List Char)
    (groups : List ConfusableGroup)
    (h : ∀ c ∈ text, lookupGroup groups c = none → pySpecial c = false) :
    reCompile (build_regex text groups) = some (genAST text groups) := by
  rw [reCompile, tokenize_build_regex text groups h]
  exact parseToks_atoms_closed groups text

theorem reCompile_escapeAll (text : List Char) :
    reCompile (escapeAll text) = some (genAST text []) := by
  rw [reCompile, tokenize_escapeAll text]
  exact parseToks_atoms_closed [] text

/-! ## Construction and matching, unfolded -/

theorem build_eq_fallback (analyze : Oracle) (text : List Char)
    (h : analyze text = []) :
    Filter.build analyze text = some ⟨text, genAST text []⟩ := by
  simp [Filter.build, h, reCompile_escapeAll]

theorem build_eq_groups (analyze : Oracle) (text : List Char)
    (g : ConfusableGroup) (gs : List ConfusableGroup)
    (hg : analyze text = g :: gs)
    (h : ∀ c ∈ text, lookupGroup (g :: gs) c = none → pySpecial c = false) :
    Filter.build analyze text = some ⟨text, genAST text (g :: gs)⟩ := by
  simp [Filter.build, hg, reCompile_build_regex _ _ h]

theorem matches_eq (f : Filter) (content : List Char) :
    f.matches content
      = (searchB f.regex content || searchB f.regex (stripSpaces content)) := by
  simp [Filter.matches]

theorem stripSpaces_append (a b : List Char) :
    stripSpaces (a ++ b) = stripSpaces a ++ stripSpaces b := by
  simp [stripSpaces]

theorem stripSpaces_space_cons {c : Char} (h : isUnicodeSpace c = true)
    (s : List Char) : stripSpaces (c :: s) = stripSpaces s := by
  simp [stripSpaces, h]

theorem stripSpaces_clean (p : List Char)
    (h : ∀ c ∈ p, isUnicodeSpace c = false) : stripSpaces p = p := by
  refine List.filter_eq_self.mpr ?_
  intro a ha
  simp [h a ha]

theorem genAST_nil (groups : List ConfusableGroup) :
    genAST [] groups = RE.eps := rfl

theorem searchB_eps (s : List Char) : searchB RE.eps s = true := by
  cases s <;> simp [searchB, matchPrefix, nullable]

theorem nullable_genAST_cons (a : Char) (p : List Char)
    (groups : List ConfusableGroup) :
    nullable (genAST (a :: p) groups) = false := by
  simp [genAST, nullable, nullable_elemRE]

theorem searchB_genAST_self (groups : List ConfusableGroup) (p : List Char) :
    searchB (genAST p groups) p = true :=
  (searchB_iff _ _).mpr
    ⟨[], p, [], by simp, by rw [rmatch_genAST]; exact rowMatch_refl groups p⟩

end Futaba

namespace Futaba

/-! ## Claim theorems -/

/-- C5: `matches` returns true exactly when the compiled pattern matches
some substring of the content as-is or of the content with every
whitespace-homoglyph code point removed, and it always returns a plain
boolean. -/
theorem c5_matches_is_dual_candidate_search (f : Filter)
    (content : List Char) :
    f.matches content = true
      ↔ ((∃ u w v, content = u ++ (w ++ v) ∧ rmatch f.regex w = true)
        ∨ (∃ u w v, stripSpaces content = u ++ (w ++ v)
            ∧ rmatch f.regex w = true)) := by
  rw [matches_eq, Bool.or_eq_true_iff, searchB_iff, searchB_iff]

/-- C7: matcher equality holds iff the `text` fields are equal (compiled
patterns are never compared), the hash is a function of `text` alone, and
the salt `0x2C6F024ED28` guarantees a matcher's hash differs from the
plain string hash of its own text. -/
theorem c7_identity_contract (h : List Char → Nat) (f g : Filter) :
    (Filter.eqF f g = true ↔ f.text = g.text)
    ∧ (f.text = g.text → Filter.hashWith h f = Filter.hashWith h g)
    ∧ Filter.hashWith h f ≠ h f.text := by
  refine ⟨by simp [Filter.eqF], fun he => by simp [Filter.hashWith, he], ?_⟩
  intro hcontra
  have hz : (0x2C6F024ED28 : Nat) = 0 := by
    have h1 : h f.text ^^^ (h f.text ^^^ 0x2C6F024ED28)
        = h f.text ^^^ h f.text := by
      rw [Filter.hashWith] at hcontra
      rw [hcontra]
    rw [Nat.xor_self] at h1
    calc (0x2C6F024ED28 : Nat)
        = h f.text ^^^ (h f.text ^^^ 0x2C6F024ED28) := by
          rw [← Nat.xor_assoc, Nat.xor_self, Nat.zero_xor]
      _ = 0 := h1
  exact absurd hz (by decide)

/-- C7 witness: two independently built matchers with the same text (and
even different compiled patterns) are equal and hash identically, and the
hash differs from the bare text hash. -/
theorem c7_identity_contract_witness :
    (Filter.eqF ⟨['a'], RE.eps⟩ ⟨['a'], RE.dot⟩ = true)
    ∧ (Filter.hashWith (fun _ => 5) ⟨['a'], RE.eps⟩
        = Filter.hashWith (fun _ => 5) ⟨['a'], RE.dot⟩)
    ∧ Filter.hashWith (fun _ => 5) ⟨['a'], RE.eps⟩
        ≠ (fun _ => 5 : List Char → Nat) (Filter.text ⟨['a'], RE.eps⟩) :=
  have H := c7_identity_contract (fun _ => 5) ⟨['a'], RE.eps⟩ ⟨['a'], RE.dot⟩
  ⟨H.1.mpr rfl, H.2.1 rfl, H.2.2⟩

/-- C9: equality against a non-matcher right operand is total and returns
`False`, because the `isinstance` guard runs before any attribute access. -/
theorem c9_eq_total_on_non_filters (f : Filter) (v : PyValue)
    (h : ∀ g, v ≠ PyValue.filt g) : Filter.eqPy f v = false := by
  cases v with
  | filt g => exact absurd rfl (h g)
  | str s => rfl
  | int n => rfl
  | noneV => rfl
  | boolV b => rfl

/-- C9 witness: a matcher compared against the integer 0. -/
theorem c9_eq_total_on_non_filters_witness :
    Filter.eqPy ⟨['a'], RE.eps⟩ (PyValue.int 0) = false :=
  c9_eq_total_on_non_filters ⟨['a'], RE.eps⟩ (PyValue.int 0)
    (fun _ hg => PyValue.noConfusion hg)

/-- C4 counterexample: with an oracle reporting a group for `a` (per the
spec's oracle contract), building the phrase `a(` raises: the ungrouped
`(` is emitted unescaped and the pattern `[aа](` fails to compile. -/
theorem c4_counterexample : Filter.build oracleCyrA ['a', '('] = none := by
  decide

/-- C4 (amended): construction succeeds whenever the oracle reports no
groups (the fallback escapes every character), and also in the groups
branch whenever every character without a group entry is not a regex
metacharacter; it is not failure-free in general. -/
theorem c4_construction_succeeds (analyze : Oracle) (p : List Char)
    (h : analyze p = []
      ∨ ∀ c ∈ p, lookupGroup (analyze p) c = none → pySpecial c = false) :
    (Filter.build analyze p).isSome = true := by
  rcases h with h | h
  · rw [build_eq_fallback analyze p h]
    rfl
  · cases hg : analyze p with
    | nil =>
        rw [build_eq_fallback analyze p hg]
        rfl
    | cons g gs =>
        rw [build_eq_groups analyze p g gs hg
          (fun c hc hn => h c hc (by rw [hg]; exact hn))]
        rfl

/-- C4 witness: both sufficient conditions at concrete inputs. -/
theorem c4_construction_succeeds_witness :
    ((Filter.build oracleNone ['a', '.']).isSome = true)
    ∧ ((Filter.build oracleCyrA ['a', 'b']).isSome = true) :=
  ⟨c4_construction_succeeds oracleNone ['a', '.'] (Or.inl rfl),
   c4_construction_succeeds oracleCyrA ['a', 'b'] (Or.inr (by decide))⟩

end Futaba

namespace Futaba

/-- C1 counterexample: with an oracle reporting a group for `a` (allowed
by the oracle contract), the groups branch emits the ungrouped `.` and `*`
raw — the fragment for `.` is `.`, not the escaped `\.` — and the matcher
built from `a.b*c` does not even match its own phrase, contradicting the
claimed `matches(build("a.b*c"), "a.b*c") = true`. -/
theorem c1_counterexample :
    (build_regex ['a', '.'] [⟨'a', ['а']⟩] = ['[', 'a', 'а', ']', '.'])
    ∧ (Filter.build oracleCyrA ['a', '.', 'b', '*', 'c']).map
        (fun f => f.matches ['a', '.', 'b', '*', 'c']) = some false := by
  exact ⟨by decide, by decide⟩

/-- C1 (amended): for every phrase the oracle reports no groups for, the
fallback compiles the escaped pattern; `re.escape` emits every regex
metacharacter in escaped literal form, class fragments escape every
member, and the compiled pattern matches exactly the case-insensitive
copies of the phrase — metacharacters are matched literally, never
interpreted as pattern syntax — so `matches` is exactly dual-candidate
substring search.  In the groups branch, characters without a group
entry are emitted raw. -/
theorem c1_fallback_escapes_metachars (analyze : Oracle) (p : List Char)
    (h : analyze p = []) :
    (Filter.build analyze p = some ⟨p, genAST p []⟩)
    ∧ (∀ c, pySpecial c = true → reEscape c = ['\\', c])
    ∧ (∀ g : ConfusableGroup,
        classFrag g = '[' :: (escapeAll (g.character :: g.homoglyphs) ++ [']']))
    ∧ (∀ w, rmatch (genAST p []) w = true ↔ ciEqB p w = true)
    ∧ (∀ content, Filter.matches ⟨p, genAST p []⟩ content
        = (containsCI p content || containsCI p (stripSpaces content))) := by
  refine ⟨build_eq_fallback analyze p h, ?_, ?_, ?_, ?_⟩
  · intro c hc
    simp [reEscape, hc]
  · intro g
    simp [classFrag, escapeAll]
  · intro w
    rw [rmatch_genAST, rowMatch_nil_eq]
  · intro content
    rw [matches_eq]
    simp only [searchB_fallback_eq_contains]

/-- C1 witness: at the phrase `a.b*c` under the no-confusables oracle,
the claim's example pair holds — the matcher accepts `a.b*c` itself and
rejects `axbyyc`. -/
theorem c1_fallback_escapes_metachars_witness :
    (oracleNone ['a', '.', 'b', '*', 'c'] = [])
    ∧ ((Filter.build oracleNone ['a', '.', 'b', '*', 'c']).map
        (fun f => f.matches ['a', '.', 'b', '*', 'c']) = some true)
    ∧ ((Filter.build oracleNone ['a', '.', 'b', '*', 'c']).map
        (fun f => f.matches ['a', 'x', 'b', 'y', 'y', 'c']) = some false) := by
  have H := c1_fallback_escapes_metachars oracleNone
    ['a', '.', 'b', '*', 'c'] rfl
  refine ⟨rfl, ?_, ?_⟩
  · rw [H.1]
    decide
  · rw [H.1]
    decide

/-- C2 counterexample: the phrase `ab` (no confusables reported) matches
the content `a b`, which does not contain `ab` as a case-insensitive
substring — the whitespace-stripped candidate matches, so the fallback
path is not identical to direct substring search on the content. -/
theorem c2_counterexample :
    ((Filter.build oracleNone ['a', 'b']).map
        (fun f => f.matches ['a', ' ', 'b']) = some true)
    ∧ containsCI ['a', 'b'] ['a', ' ', 'b'] = false := by
  exact ⟨by decide, by decide⟩

/-- C2 (amended): when the oracle reports no confusables, `matches` is
exactly case-insensitive substring search applied to the content and to
the content with whitespace homoglyphs stripped. -/
theorem c2_fallback_is_substring_search (analyze : Oracle)
    (p content : List Char) (h : analyze p = []) :
    (Filter.build analyze p).map (fun f => f.matches content)
      = some (containsCI p content
          || containsCI p (stripSpaces content)) := by
  rw [build_eq_fallback analyze p h]
  have hm : Filter.matches ⟨p, genAST p []⟩ content
      = (containsCI p content || containsCI p (stripSpaces content)) := by
    rw [matches_eq]
    simp only [searchB_fallback_eq_contains]
  simp [hm]

/-- C2 witness: the amended claim at a concrete phrase and content. -/
theorem c2_fallback_is_substring_search_witness :
    (oracleNone ['a', 'b'] = [])
    ∧ (Filter.build oracleNone ['a', 'b']).map
        (fun f => f.matches ['x', 'a', 'b'])
      = some (containsCI ['a', 'b'] ['x', 'a', 'b']
          || containsCI ['a', 'b'] (stripSpaces ['x', 'a', 'b'])) :=
  ⟨rfl, c2_fallback_is_substring_search oracleNone ['a', 'b'] ['x', 'a', 'b'] rfl⟩

/-- C6 counterexample: with an oracle reporting a group for `a`,
construction of `a.b*c` succeeds, yet the matcher does not match its own
source phrase — the raw `*` became a quantifier and the raw `.` a
wildcard, so reflexivity fails. -/
theorem c6_counterexample :
    ((Filter.build oracleCyrA ['a', '.', 'b', '*', 'c']).isSome = true)
    ∧ ((Filter.build oracleCyrA ['a', '.', 'b', '*', 'c']).map
        (fun f => f.matches ['a', '.', 'b', '*', 'c']) = some false) := by
  exact ⟨by decide, by decide⟩

/-- C6 (amended): reflexivity — a matcher matches its own source phrase —
holds whenever the oracle reports no groups, and in the groups branch
whenever every character without a group entry is not a regex
metacharacter (each phrase character is then accepted by its own class or
literal); it can fail when ungrouped metacharacters are emitted raw. -/
theorem c6_reflexivity (analyze : Oracle) (p : List Char)
    (h : analyze p = []
      ∨ ∀ c ∈ p, lookupGroup (analyze p) c = none → pySpecial c = false) :
    (Filter.build analyze p).map (fun f => f.matches p) = some true := by
  have main : ∀ (groups : List ConfusableGroup),
      Filter.build analyze p = some ⟨p, genAST p groups⟩ →
      (Filter.build analyze p).map (fun f => f.matches p) = some true := by
    intro groups hb
    have hm : Filter.matches ⟨p, genAST p groups⟩ p = true := by
      rw [matches_eq]
      rw [searchB_genAST_self]
      simp
    rw [hb]
    simp [hm]
  rcases h with h | h
  · exact main [] (build_eq_fallback analyze p h)
  · cases hg : analyze p with
    | nil => exact main [] (build_eq_fallback analyze p hg)
    | cons g gs =>
        exact main (g :: gs) (build_eq_groups analyze p g gs hg
          (fun c hc hn => h c hc (by rw [hg]; exact hn)))

/-- C6 witness: reflexivity at a confusable-bearing phrase and at a
metacharacter phrase under the no-confusables oracle. -/
theorem c6_reflexivity_witness :
    ((Filter.build oracleCyrA ['a', 'b']).map
        (fun f => f.matches ['a', 'b']) = some true)
    ∧ ((Filter.build oracleNone ['a', '.', 'c']).map
        (fun f => f.matches ['a', '.', 'c']) = some true) :=
  ⟨c6_reflexivity oracleCyrA ['a', 'b'] (Or.inr (by decide)),
   c6_reflexivity oracleNone ['a', '.', 'c'] (Or.inl rfl)⟩

/-- C8: the empty phrase is accepted — the oracle contract forces an empty
group list (every group's character must come from the phrase), the
pattern compiles to the empty regex, and the resulting matcher matches
every content string, including the empty one. -/
theorem c8_empty_phrase_matches_everything (analyze : Oracle)
    (content : List Char)
    (h : ∀ g ∈ analyze [], g.character ∈ ([] : List Char)) :
    (Filter.build analyze []).map (fun f => f.matches content)
      = some true := by
  have hnil : analyze [] = [] := by
    cases hg : analyze [] with
    | nil => rfl
    | cons g gs =>
        have := h g (by rw [hg]; exact List.mem_cons_self g gs)
        exact absurd this (List.not_mem_nil g.character)
  rw [build_eq_fallback analyze [] hnil]
  have hm : Filter.matches ⟨[], genAST [] []⟩ content = true := by
    rw [matches_eq, genAST_nil, searchB_eps, searchB_eps]
    rfl
  simp [hm]

/-- C8 witness: the empty phrase against nonempty and empty contents. -/
theorem c8_empty_phrase_matches_everything_witness :
    ((Filter.build oracleNone []).map (fun f => f.matches ['x', 'y'])
        = some true)
    ∧ ((Filter.build oracleNone []).map (fun f => f.matches []) = some true) :=
  ⟨c8_empty_phrase_matches_everything oracleNone ['x', 'y']
      (fun g hg => absurd hg (List.not_mem_nil g)),
   c8_empty_phrase_matches_everything oracleNone []
      (fun g hg => absurd hg (List.not_mem_nil g))⟩

/-- C10 counterexample: with an oracle reporting a group for `a`, the
phrase `a*` builds successfully into the pattern `[aа]*`, whose star
fragment is nullable — it matches inside the empty string, so `matches`
on `""` returns true, not false. -/
theorem c10_counterexample :
    ((Filter.build oracleCyrA ['a', '*']).isSome = true)
    ∧ ((Filter.build oracleCyrA ['a', '*']).map (fun f => f.matches [])
        = some true) := by
  exact ⟨by decide, by decide⟩

/-- C10 (amended): for a non-empty phrase, `matches` against the empty
content is false whenever the oracle reports no groups, or every
ungrouped character is not a regex metacharacter — the pattern is then a
concatenation of single-character-consuming fragments; a raw quantifier
from the groups branch can break this. -/
theorem c10_nonempty_rejects_empty (analyze : Oracle) (a : Char)
    (p : List Char)
    (h : analyze (a :: p) = []
      ∨ ∀ c ∈ a :: p,
          lookupGroup (analyze (a :: p)) c = none → pySpecial c = false) :
    (Filter.build analyze (a :: p)).map (fun f => f.matches [])
      = some false := by
  have main : ∀ (groups : List ConfusableGroup),
      Filter.build analyze (a :: p) = some ⟨a :: p, genAST (a :: p) groups⟩ →
      (Filter.build analyze (a :: p)).map (fun f => f.matches [])
        = some false := by
    intro groups hb
    have hm : Filter.matches ⟨a :: p, genAST (a :: p) groups⟩ [] = false := by
      rw [matches_eq]
      have hs : stripSpaces [] = ([] : List Char) := rfl
      rw [hs]
      have he : searchB (genAST (a :: p) groups) [] = false := by
        have : searchB (genAST (a :: p) groups) []
            = nullable (genAST (a :: p) groups) := rfl
        rw [this, nullable_genAST_cons]
      rw [he]
      rfl
    rw [hb]
    simp [hm]
  rcases h with h | h
  · exact main [] (build_eq_fallback analyze (a :: p) h)
  · cases hg : analyze (a :: p) with
    | nil => exact main [] (build_eq_fallback analyze (a :: p) hg)
    | cons g gs =>
        exact main (g :: gs) (build_eq_groups analyze (a :: p) g gs hg
          (fun c hc hn => h c hc (by rw [hg]; exact hn)))

/-- C10 witness: the amended claim at concrete phrases for both
conditions. -/
theorem c10_nonempty_rejects_empty_witness :
    ((Filter.build oracleNone ['a', 'b']).map (fun f => f.matches [])
        = some false)
    ∧ ((Filter.build oracleCyrA ['a', 'b']).map (fun f => f.matches [])
        = some false) :=
  ⟨c10_nonempty_rejects_empty oracleNone 'a' ['b'] (Or.inl rfl),
   c10_nonempty_rejects_empty oracleCyrA 'a' ['b'] (Or.inr (by decide))⟩

end Futaba

namespace Futaba

/-- C3 counterexample: the line separator U+2028, claimed to be in the
stripped set, is absent from it — inserting it into an otherwise-matching
occurrence (`"aU+2028b"` for phrase `"ab"`) yields false, not true. -/
theorem c3_counterexample :
    ('\u2028' ∉ UNICODE_SPACES)
    ∧ ((Filter.build oracleNone ['a', 'b']).map
        (fun f => f.matches ['a', '\u2028', 'b']) = some false) := by
  exact ⟨by decide, by decide⟩

/-- C3 (amended): the stripped whitespace-homoglyph set is exactly the
seventeen distinct code points written in the source — space, NBSP, Ogham
space mark, Mongolian vowel separator, U+2000–U+200A, zero-width space,
narrow no-break space, medium mathematical space, ideographic space and
zero-width no-break space (U+2006 listed twice); the line and paragraph
separators are NOT in it.  For every member of the actual set, inserting
it inside an otherwise-matching occurrence of a whitespace-free,
no-confusables phrase still matches. -/
theorem c3_space_set_and_insertion (analyze : Oracle)
    (u v w1 w2 : List Char) (c : Char) (hc : c ∈ UNICODE_SPACES)
    (h : analyze (w1 ++ w2) = [])
    (hclean : ∀ x ∈ w1 ++ w2, isUnicodeSpace x = false) :
    (UNICODE_SPACES.map Char.toNat
      = [0x20, 0xA0, 0x1680, 0x180E, 0x2000, 0x2001, 0x2002, 0x2003,
         0x2004, 0x2005, 0x2006, 0x2006, 0x2007, 0x2008, 0x2009, 0x200A,
         0x200B, 0x202F, 0x205F, 0x3000, 0xFEFF])
    ∧ (Filter.build analyze (w1 ++ w2)).map
        (fun f => f.matches (u ++ (w1 ++ (c :: (w2 ++ v)))))
      = some true := by
  refine ⟨by decide, ?_⟩
  rw [build_eq_fallback analyze _ h]
  have hcs : isUnicodeSpace c = true := by
    unfold isUnicodeSpace
    exact List.elem_eq_true_of_mem hc
  have hw1 : stripSpaces w1 = w1 :=
    stripSpaces_clean w1 (fun x hx => hclean x (List.mem_append.mpr (Or.inl hx)))
  have hw2 : stripSpaces w2 = w2 :=
    stripSpaces_clean w2 (fun x hx => hclean x (List.mem_append.mpr (Or.inr hx)))
  have hstrip : stripSpaces (u ++ (w1 ++ (c :: (w2 ++ v))))
      = stripSpaces u ++ (w1 ++ (w2 ++ stripSpaces v)) := by
    rw [stripSpaces_append, stripSpaces_append, stripSpaces_space_cons hcs,
      stripSpaces_append, hw1, hw2]
  have hm : Filter.matches ⟨w1 ++ w2, genAST (w1 ++ w2) []⟩
      (u ++ (w1 ++ (c :: (w2 ++ v)))) = true := by
    rw [matches_eq, hstrip]
    have h2 : searchB (genAST (w1 ++ w2) [])
        (stripSpaces u ++ (w1 ++ (w2 ++ stripSpaces v))) = true := by
      rw [searchB_fallback_eq_contains]
      exact (containsCI_iff _ _).mpr
        ⟨stripSpaces u, w1 ++ w2, stripSpaces v, by simp, ciEqB_refl _⟩
    rw [h2]
    simp
  simp [hm]

/-- C3 witness: inserting a non-breaking space inside an occurrence of
the phrase `ab` still matches. -/
theorem c3_space_set_and_insertion_witness :
    ('\u00A0' ∈ UNICODE_SPACES)
    ∧ (oracleNone (['a'] ++ ['b']) = [])
    ∧ (∀ x ∈ ['a'] ++ ['b'], isUnicodeSpace x = false)
    ∧ ((UNICODE_SPACES.map Char.toNat
        = [0x20, 0xA0, 0x1680, 0x180E, 0x2000, 0x2001, 0x2002, 0x2003,
           0x2004, 0x2005, 0x2006, 0x2006, 0x2007, 0x2008, 0x2009, 0x200A,
           0x200B, 0x202F, 0x205F, 0x3000, 0xFEFF])
      ∧ (Filter.build oracleNone (['a'] ++ ['b'])).map
          (fun f => f.matches ([] ++ (['a'] ++ ('\u00A0' :: (['b'] ++ [])))))
        = some true) :=
  ⟨by decide, rfl, by decide,
   c3_space_set_and_insertion oracleNone [] [] ['a'] ['b'] '\u00A0'
     (by decide) rfl (by decide)⟩

end Futaba
